import Mathlib

/-!
Verification of the `jood-common` string utilities
(`src/projects/packages/string/utils.ts`) against its natural-language
specification.  Strings are embedded as `List Char`; machine behaviour that can
throw (array construction with a negative length, indexing into a possibly-null
regex match) is embedded with `Option`, `none` standing for a thrown exception.
Each definition is a direct translation of the corresponding TypeScript
function; regex-driven code is translated by modelling the effect of the
concrete pattern used at that call site.
-/

/-- Whitespace class of the JavaScript regular-expression `\s` escape and of
`String.prototype.trim` (ASCII whitespace, NBSP, Ogham space, the U+2000 block,
line/paragraph separators, narrow/medium spaces, ideographic space, BOM). -/
def jsWhitespace : List Char :=
  [' ', '\t', '\n', '\r', '\x0b', '\x0c', ' ', ' ',
   ' ', ' ', ' ', ' ', ' ', ' ', ' ',
   ' ', ' ', ' ', ' ',
   ' ', ' ', ' ', ' ', '　', '﻿']

/-- Decidable test for the JavaScript `\s` character class. -/
def isSpaceJS (c : Char) : Bool :=
  jsWhitespace.contains c

/-- JavaScript `Array.prototype.join` with an arbitrary separator string
(`[].join(sep) = ""`, one piece joins to itself). -/
def joinSep (sep : List Char) : List (List Char) → List Char
  | [] => []
  | [p] => p
  | p :: q :: rest => p ++ sep ++ joinSep sep (q :: rest)

/-- Bool test that `pat` is a leading piece of `s` (used to model literal
substring search). -/
def leadsWith : List Char → List Char → Bool
  | [], _ => true
  | _ :: _, [] => false
  | c :: p, d :: s => c == d && leadsWith p s

/-- Bool test that `pat` occurs as a contiguous substring of `s`
(JavaScript `String.prototype.includes`). -/
def containsSub (pat : List Char) : List Char → Bool
  | [] => pat.isEmpty
  | c :: rest => leadsWith pat (c :: rest) || containsSub pat rest

/- ------------------------------------------------------------------ -/
/- toEllipsisMiddle / toEllipsisEnd (utils.ts lines 244-280)           -/
/- ------------------------------------------------------------------ -/

/-- Embedding of `toEllipsisMiddle(text, max, alternative)`: falsy text is
passed through, text longer than `max` keeps `floor(max/2)` characters from
each end around `alternative` (`substring(0, half)` and
`substring(strLen - half, strLen)`). -/
def toEllipsisMiddle (text : List Char) (max : Nat) (alternative : List Char) :
    List Char :=
  if text = [] then text
  else
    let strLen := text.length
    if max < strLen then
      text.take (max / 2) ++ alternative ++ text.drop (strLen - max / 2)
    else text

/-- Embedding of `toEllipsisEnd(text, max, alternative)`: falsy text returns
`null` (embedded as `none`), text longer than `max` keeps the first `max`
characters followed by `alternative`. -/
def toEllipsisEnd (text : List Char) (max : Nat) (alternative : List Char) :
    Option (List Char) :=
  if text = [] then none
  else
    if max < text.length then some (text.take max ++ alternative)
    else some text

/-- C8: falsy text gives a null result from `toEllipsisEnd` but is passed
through by `toEllipsisMiddle`; overlong text keeps the first `max` characters
plus `alternative` (end) or `floor(max/2)` characters from each end joined by
`alternative` (middle); otherwise both functions return the text unchanged. -/
theorem ellipsis_spec :
    (∀ max alt, toEllipsisEnd [] max alt = none) ∧
    (∀ max alt, toEllipsisMiddle [] max alt = []) ∧
    (∀ t max alt, max < t.length →
      toEllipsisEnd t max alt = some (t.take max ++ alt)) ∧
    (∀ t max alt, max < t.length →
      toEllipsisMiddle t max alt =
        t.take (max / 2) ++ alt ++ t.drop (t.length - max / 2)) ∧
    (∀ t max alt, t ≠ [] → t.length ≤ max → toEllipsisEnd t max alt = some t) ∧
    (∀ t max alt, t.length ≤ max → toEllipsisMiddle t max alt = t) := by
  refine ⟨fun max alt => rfl, fun max alt => rfl, ?_, ?_, ?_, ?_⟩
  · intro t max alt h
    have ht : t ≠ [] := by
      intro he; rw [he] at h; simp at h
    simp [toEllipsisEnd, ht, h]
  · intro t max alt h
    have ht : t ≠ [] := by
      intro he; rw [he] at h; simp at h
    simp [toEllipsisMiddle, ht, h]
  · intro t max alt ht h
    simp [toEllipsisEnd, ht, Nat.not_lt.mpr h]
  · intro t max alt h
    by_cases ht : t = []
    · simp [toEllipsisMiddle, ht]
    · simp [toEllipsisMiddle, ht, Nat.not_lt.mpr h]

/-- C8 witness: the documented examples, obtained by instantiating
`ellipsis_spec` at `"abcdefghij"` with `max = 4`. -/
theorem ellipsis_spec_witness :
    toEllipsisEnd ("abcdefghij".toList) 4 ("...".toList) =
      some ("abcdefghij".toList.take 4 ++ "...".toList) ∧
    toEllipsisMiddle ("abcdefghij".toList) 4 ("...".toList) =
      "abcdefghij".toList.take 2 ++ "...".toList ++
        "abcdefghij".toList.drop 8 :=
  ⟨ellipsis_spec.2.2.1 ("abcdefghij".toList) 4 ("...".toList) (by decide),
   ellipsis_spec.2.2.2.1 ("abcdefghij".toList) 4 ("...".toList) (by decide)⟩

/- ------------------------------------------------------------------ -/
/- escape (utils.ts lines 308-321)                                     -/
/- ------------------------------------------------------------------ -/

/-- Replacement performed by the callback of
`text.replace(/[<>&]/g, ...)`: the three handled characters become their
entities, every other character is returned as the match itself. -/
def escapeChar (c : Char) : List Char :=
  if c = '<' then "&lt;".toList
  else if c = '>' then "&gt;".toList
  else if c = '&' then "&amp;".toList
  else [c]

/-- Embedding of `escape(text)`: the global single-pass replacement of
`[<>&]` by the callback above. -/
def escape (text : List Char) : List Char :=
  (text.map escapeChar).flatten

theorem escape_append (a b : List Char) :
    escape (a ++ b) = escape a ++ escape b := by
  simp [escape]

theorem escape_cons (c : Char) (t : List Char) :
    escape (c :: t) = escapeChar c ++ escape t := by
  simp [escape]

theorem length_escapeChar_pos (c : Char) : 1 ≤ (escapeChar c).length := by
  unfold escapeChar
  split
  · decide
  split
  · decide
  split
  · decide
  · simp

theorem length_escape_ge (s : List Char) : s.length ≤ (escape s).length := by
  induction s with
  | nil => simp [escape]
  | cons c t ih =>
    rw [escape_cons, List.length_append, List.length_cons]
    have := length_escapeChar_pos c
    omega

theorem amp_mem_escape {s : List Char}
    (h : ∃ c ∈ s, c = '<' ∨ c = '>' ∨ c = '&') : '&' ∈ escape s := by
  obtain ⟨c, hmem, hc⟩ := h
  induction s with
  | nil => cases hmem
  | cons d t ih =>
    rw [escape_cons]
    rcases List.mem_cons.mp hmem with hd | ht
    · subst hd
      rcases hc with h1 | h1 | h1 <;> subst h1 <;> simp [escapeChar]
    · exact List.mem_append.mpr (Or.inr (ih ht))

theorem length_escape_gt {s : List Char} (h : '&' ∈ s) :
    s.length < (escape s).length := by
  induction s with
  | nil => cases h
  | cons c t ih =>
    rw [escape_cons, List.length_append, List.length_cons]
    rcases List.mem_cons.mp h with hc | ht
    · have h4 : (escapeChar c).length = 5 := by subst hc; decide
      have := length_escape_ge t
      omega
    · have := ih ht
      have := length_escapeChar_pos c
      omega

/-- C9: `escape` is a single-pass homomorphic replacement sending `<`, `>`,
`&` to `&lt;`, `&gt;`, `&amp;` and leaving every other character unchanged;
and it is not idempotent: whenever the input contains one of the three
special characters, escaping twice differs from escaping once, because the
`&` introduced by the first pass is escaped again. -/
theorem escape_spec :
    (∀ a b, escape (a ++ b) = escape a ++ escape b) ∧
    escape ['<'] = "&lt;".toList ∧
    escape ['>'] = "&gt;".toList ∧
    escape ['&'] = "&amp;".toList ∧
    (∀ c, c ≠ '<' → c ≠ '>' → c ≠ '&' → escape [c] = [c]) ∧
    (∀ x, (∃ c ∈ x, c = '<' ∨ c = '>' ∨ c = '&') →
      escape (escape x) ≠ escape x) := by
  refine ⟨escape_append, by decide, by decide, by decide, ?_, ?_⟩
  · intro c h1 h2 h3
    simp [escape, escapeChar, h1, h2, h3]
  · intro x hx heq
    have hamp : '&' ∈ escape x := amp_mem_escape hx
    have hlt : (escape x).length < (escape (escape x)).length :=
      length_escape_gt hamp
    rw [heq] at hlt
    omega

/-- C9 witness: instantiating the non-idempotence part of `escape_spec` at
`"a&b"`, whose special character is found by `decide`. -/
theorem escape_spec_witness :
    escape (escape ("a&b".toList)) ≠ escape ("a&b".toList) :=
  escape_spec.2.2.2.2.2 ("a&b".toList) (by decide)

/- ------------------------------------------------------------------ -/
/- padStart / padEnd (utils.ts lines 112-158)                          -/
/- ------------------------------------------------------------------ -/

/-- The `string | number` union type of the padding functions. -/
inductive StrOrNum where
  | str (s : List Char)
  | num (n : Int)

/-- JavaScript `text.toString()` on the union (decimal rendering for the
numeric case). -/
def StrOrNum.asString : StrOrNum → List Char
  | .str s => s
  | .num n => (toString n).toList

/-- Embedding of `padStart(text, addText, expectCount)`.  The source builds
`Array.from(Array(expectCount - len)).map(() => addText)`; when
`expectCount - len` is negative, `Array(count)` throws a `RangeError`
(embedded as `none`).  Otherwise `count` copies of `addText` are joined in
front of the text and the result is cut to its last `expectCount` characters
when it is too long. -/
def padStart (text : StrOrNum) (addText : List Char) (expectCount : Int) :
    Option (List Char) :=
  let refine := text.asString
  let count : Int := expectCount - refine.length
  if count < 0 then none
  else
    let adds := (List.replicate count.toNat addText).flatten
    let refine2 := adds ++ refine
    if expectCount < (refine2.length : Int) then
      some (refine2.drop (refine2.length - expectCount.toNat))
    else some refine2

/-- Embedding of `padEnd(text, addText, expectCount)`; same structure as
`padStart` with the copies appended and the cut taken from the left
(`substring(0, expectCount)`). -/
def padEnd (text : StrOrNum) (addText : List Char) (expectCount : Int) :
    Option (List Char) :=
  let refine := text.asString
  let count : Int := expectCount - refine.length
  if count < 0 then none
  else
    let adds := (List.replicate count.toNat addText).flatten
    let refine2 := refine ++ adds
    if expectCount < (refine2.length : Int) then
      some (refine2.take expectCount.toNat)
    else some refine2

/-- C1 (code bug): the spec promises a result of length exactly
`expectCount` with the text anchored right resp. left, in particular
`padStart("12345", "0", 3) = "345"`.  The code instead throws a `RangeError`
on that very input, because `expectCount - len` is negative and
`Array(-2)` has an invalid length; its own truncation branch
(`refine.substring(refine.length - expectCount, ...)`) is unreachable for
such inputs.  The other documented examples do hold. -/
theorem padStart_truncate_throws :
    padStart (.str ("12345".toList)) ("0".toList) 3 = none ∧
    padStart (.num 5) ("0".toList) 3 = some ("005".toList) ∧
    padEnd (.str ("ab".toList)) ("-".toList) 5 = some ("ab---".toList) := by
  refine ⟨by decide, ?_, by decide⟩
  have h5 : (StrOrNum.num 5).asString = ['5'] := by decide
  simp [padStart, h5]

/- ------------------------------------------------------------------ -/
/- toCamelFromSnake / toCamelFromKebab (utils.ts lines 52-66)          -/
/- ------------------------------------------------------------------ -/

/-- ASCII letter test: what the character class `[a-z]` matches under the
case-insensitive `i` flag of `/([_][a-z])/gi` (no `u` flag, so exactly the
52 ASCII letters). -/
def isAsciiAlpha (c : Char) : Bool :=
  ('a' ≤ c && c ≤ 'z') || ('A' ≤ c && c ≤ 'Z')

/-- Embedding of `text.replace(/([sep][a-z])/gi, $1 =>
$1.toUpperCase().replace(sep, ""))`: a left-to-right scan; at a separator
followed by an ASCII letter the two matched characters are replaced by the
uppercased letter and scanning resumes after the match, otherwise the scan
moves one character forward. -/
def camelRepl (sep : Char) : List Char → List Char
  | [] => []
  | [c] => [c]
  | c :: d :: rest =>
    if c = sep && isAsciiAlpha d then d.toUpper :: camelRepl sep rest
    else c :: camelRepl sep (d :: rest)

/-- Embedding of `toCamelFromSnake(text)`. -/
def toCamelFromSnake (text : List Char) : List Char :=
  camelRepl '_' text

/-- Embedding of `toCamelFromKebab(text)`. -/
def toCamelFromKebab (text : List Char) : List Char :=
  camelRepl '-' text

/-- C3 counterexample: the claim says `"_A"` (separator followed by an
uppercase letter) is left unchanged, but the `i` flag of `/([_][a-z])/gi`
makes the pattern match `"_A"`, so `toCamelFromSnake("x_Ay") = "xAy"`:
the separator is removed. -/
theorem toCamelFromSnake_uppercase_counterexample :
    toCamelFromSnake ("x_Ay".toList) = "xAy".toList ∧
    toCamelFromSnake ("x_Ay".toList) ≠ "x_Ay".toList ∧
    containsSub ("_A".toList) (toCamelFromSnake ("x_Ay".toList)) = false := by
  decide

/-- Bool test that no occurrence of `sep` in `s` is immediately followed by
an ASCII letter (so no position of `s` matches `/([sep][a-z])/i`). -/
def sepOkay (sep : Char) : List Char → Bool
  | [] => true
  | c :: rest =>
    (if c = sep then
      match rest.head? with
      | some d => !isAsciiAlpha d
      | none => true
    else true) && sepOkay sep rest

/-- C3 amended: only occurrences of the separator followed by an ASCII
letter — of either case, because of the regex `i` flag — are transformed
(separator removed, letter uppercased); a separator followed by a digit or
any other non-letter (such as `"_1"`) is left unchanged, and strings with no
such occurrence are returned whole. -/
theorem camel_separator_amended :
    (∀ sep s, sepOkay sep s = true → camelRepl sep s = s) ∧
    toCamelFromSnake ("foo_bar_baz".toList) = "fooBarBaz".toList ∧
    toCamelFromKebab ("foo-bar-baz".toList) = "fooBarBaz".toList ∧
    toCamelFromSnake ("x_Ay".toList) = "xAy".toList ∧
    toCamelFromSnake ("a_1b".toList) = "a_1b".toList := by
  refine ⟨?_, by decide, by decide, by decide, by decide⟩
  intro sep s
  induction s with
  | nil => intro _; rfl
  | cons c rest ih =>
    intro h
    rw [sepOkay] at h
    simp only [Bool.and_eq_true] at h
    obtain ⟨hhead, htail⟩ := h
    cases rest with
    | nil => rfl
    | cons d rest' =>
      have hcond : (c = sep && isAsciiAlpha d) = false := by
        by_cases hc : c = sep
        · rw [if_pos hc] at hhead
          simp only [List.head?_cons] at hhead
          cases hda : isAsciiAlpha d
          · simp [hda]
          · simp [hda] at hhead
        · simp [hc]
      rw [camelRepl, hcond]
      simp only [Bool.false_eq_true, if_false]
      rw [ih htail]

/-- C3 amended witness: instantiating the preservation part of
`camel_separator_amended` at `"a_1b"`, whose separator is followed by a
digit. -/
theorem camel_separator_amended_witness :
    camelRepl '_' ("a_1b".toList) = "a_1b".toList :=
  camel_separator_amended.1 '_' ("a_1b".toList) (by decide)

/- ------------------------------------------------------------------ -/
/- replaceAll (utils.ts lines 14-22)                                   -/
/- ------------------------------------------------------------------ -/

/-- Prepend a character to the first piece of a split result (helper for the
character-by-character model of `String.prototype.split`). -/
def consHead (c : Char) : List (List Char) → List (List Char)
  | [] => [[c]]
  | h :: t => (c :: h) :: t

/-- Model of `s.split(find)` for a non-empty literal `find`: leftmost
non-overlapping matches separate the pieces.  `fuel` bounds the scan; one
unit is spent per consumed character, so `fuel = s.length` always
suffices. -/
def splitFuel (find : List Char) : Nat → List Char → List (List Char)
  | 0, s => [s]
  | _ + 1, [] => [[]]
  | fuel + 1, c :: rest =>
    if leadsWith find (c :: rest) && !find.isEmpty then
      [] :: splitFuel find fuel ((c :: rest).drop find.length)
    else consHead c (splitFuel find fuel rest)

/-- Embedding of `replaceAll(text, find, replace)`:
`text.split(find).join(replace)` guarded by the two falsy checks. -/
def replaceAll (text find rep : List Char) : List Char :=
  if text.isEmpty then text
  else if find.isEmpty then text
  else joinSep rep (splitFuel find text.length text)

/-- C4 counterexample: with `find = "ab"` and `replace = ""` (which does not
contain `find`), `replaceAll("aabb", "ab", "") = "ab"` — the removal of the
middle `"ab"` glues the leading `"a"` to the trailing `"b"` and re-forms an
occurrence of `find`, so the claimed no-occurrence property is false. -/
theorem replaceAll_boundary_counterexample :
    replaceAll ("aabb".toList) ("ab".toList) [] = "ab".toList ∧
    containsSub ("ab".toList) (replaceAll ("aabb".toList) ("ab".toList) [])
      = true ∧
    containsSub ("ab".toList) [] = false := by
  decide

theorem splitFuel_single_not_mem (c : Char) :
    ∀ fuel s, s.length ≤ fuel → ∀ p ∈ splitFuel [c] fuel s, c ∉ p := by
  intro fuel
  induction fuel with
  | zero =>
    intro s hs p hp
    have : s = [] := List.length_eq_zero.mp (Nat.le_zero.mp hs)
    subst this
    rw [splitFuel] at hp
    simp only [List.mem_singleton] at hp
    subst hp
    exact List.not_mem_nil c
  | succ fuel ih =>
    intro s hs p hp
    cases s with
    | nil =>
      rw [splitFuel] at hp
      simp only [List.mem_singleton] at hp
      subst hp
      exact List.not_mem_nil c
    | cons d rest =>
      rw [splitFuel] at hp
      have hlen : rest.length ≤ fuel := by
        simp only [List.length_cons] at hs; omega
      by_cases hd : d = c
      · have hlead : (leadsWith [c] (d :: rest) && !([c].isEmpty)) = true := by
          simp [leadsWith, hd]
        rw [hlead, if_pos rfl] at hp
        rcases List.mem_cons.mp hp with hnil | hrec
        · subst hnil; exact List.not_mem_nil c
        · exact ih ((d :: rest).drop 1) (by simpa using hlen) p hrec
      · have hcd : (c == d) = false :=
          beq_eq_false_iff_ne.mpr (fun h => hd h.symm)
        have hlead : (leadsWith [c] (d :: rest) && !([c].isEmpty)) = false := by
          simp [leadsWith, hcd]
        rw [hlead] at hp
        simp only [Bool.false_eq_true, if_false] at hp
        cases hsp : splitFuel [c] fuel rest with
        | nil =>
          rw [hsp] at hp
          simp only [consHead, List.mem_singleton] at hp
          subst hp
          intro hm
          rcases List.mem_singleton.mp hm with h
          exact hd h.symm
        | cons h t =>
          rw [hsp] at hp
          simp only [consHead] at hp
          rcases List.mem_cons.mp hp with hph | hpt
          · subst hph
            intro hm
            rcases List.mem_cons.mp hm with h1 | h2
            · exact hd h1.symm
            · exact ih rest hlen h (hsp ▸ List.mem_cons_self h t) h2
          · exact ih rest hlen p (hsp ▸ List.mem_cons.mpr (Or.inr hpt))

theorem joinSep_not_mem (c : Char) (rep : List Char) :
    ∀ L, c ∉ rep → (∀ p ∈ L, c ∉ p) → c ∉ joinSep rep L := by
  intro L
  induction L with
  | nil => intro _ _; exact List.not_mem_nil c
  | cons p rest ih =>
    intro hrep hall
    cases rest with
    | nil =>
      rw [joinSep]
      exact hall p (List.mem_singleton.mpr rfl)
    | cons q rest' =>
      rw [joinSep]
      intro hm
      rcases List.mem_append.mp hm with h1 | h2
      · rcases List.mem_append.mp h1 with ha | hb
        · exact hall p (List.mem_cons_self p _) ha
        · exact hrep hb
      · exact ih hrep (fun x hx => hall x (List.mem_cons.mpr (Or.inr hx))) h2

/-- C4 amended: the no-occurrence law holds for a single-character search
term: if `find = c` and the replacement does not contain `c`, the result
contains no `c`.  For a multi-character `find`, occurrences can re-form
across piece boundaries (see `replaceAll_boundary_counterexample`).  The
falsy pass-throughs hold as claimed: empty text and empty `find` return the
text unchanged. -/
theorem replaceAll_amended :
    (∀ text c rep, c ∉ rep → c ∉ replaceAll text [c] rep) ∧
    (∀ find rep, replaceAll [] find rep = []) ∧
    (∀ text rep, replaceAll text [] rep = text) := by
  refine ⟨?_, ?_, ?_⟩
  · intro text c rep hrep
    by_cases ht : text = []
    · subst ht
      rw [replaceAll]
      simp only [List.isEmpty_nil, if_pos]
      exact List.not_mem_nil c
    · rw [replaceAll]
      have h1 : text.isEmpty = false := by
        cases text
        · exact absurd rfl ht
        · rfl
      rw [h1]
      simp only [Bool.false_eq_true, if_false, List.isEmpty_cons]
      exact joinSep_not_mem c rep _ hrep
        (splitFuel_single_not_mem c text.length text (Nat.le_refl _))
  · intro find rep; rfl
  · intro text rep
    rw [replaceAll]
    cases text with
    | nil => rfl
    | cons c rest => rfl

/-- C4 amended witness: the single-character law instantiated at
`replaceAll("aca", "c", "X")` with the hypothesis `'c' ∉ "X"` discharged by
`decide`. -/
theorem replaceAll_amended_witness :
    'c' ∉ replaceAll ("aca".toList) ['c'] ("X".toList) :=
  replaceAll_amended.1 ("aca".toList) 'c' ("X".toList) (by decide)

/- ------------------------------------------------------------------ -/
/- removeTag (utils.ts lines 29-36)                                    -/
/- ------------------------------------------------------------------ -/

/-- Attempt of the tag pattern `(<([^>]+)>)` just after an opening `<`:
greedily take non-`>` characters; the match succeeds only when at least one
was taken and a closing `>` follows, and then returns the input remaining
after that `>`. -/
def tagSplit (rest : List Char) : Option (List Char) :=
  let content := rest.takeWhile (fun c => c != '>')
  if content.isEmpty then none
  else if (rest.drop content.length).head? == some '>' then
    some (rest.drop (content.length + 1))
  else none

/-- Left-to-right global replacement of `/(<([^>]+)>)/gi` by the empty
string.  One unit of fuel is spent per step and every step consumes at least
one character, so `fuel = s.length` always suffices. -/
def removeTagFuel : Nat → List Char → List Char
  | 0, s => s
  | _ + 1, [] => []
  | fuel + 1, '<' :: rest =>
    (match tagSplit rest with
     | some rest' => removeTagFuel fuel rest'
     | none => '<' :: removeTagFuel fuel rest)
  | fuel + 1, c :: rest => c :: removeTagFuel fuel rest

/-- Embedding of `removeTag(tagText, removeTabSpace)`: strip every match of
the tag pattern, then (by default) remove tab characters through
`replaceAll`. -/
def removeTag (tagText : List Char) (removeTabSpace : Bool) : List Char :=
  let refine := removeTagFuel tagText.length tagText
  if removeTabSpace then replaceAll refine ['\t'] [] else refine

/-- C10 counterexample: the claim says the two-character substring `"<>"`
is left unchanged in the output for every input, but in `"<<>>"` the pattern
matches `"<<>"` (its content being the inner `<`), consuming both characters
of the `"<>"` occurrence: `removeTag("<<>>") = ">"`. -/
theorem removeTag_overlap_counterexample :
    removeTag ("<<>>".toList) true = ">".toList ∧
    containsSub ("<>".toList) ("<<>>".toList) = true ∧
    containsSub ("<>".toList) (removeTag ("<<>>".toList) true) = false := by
  decide

/-- C10 amended: the tag pattern requires at least one character between the
brackets, so a scan position at `<` immediately followed by `>` never starts
a removal — whenever the rest of the input begins with `"<>"`, both
characters are kept and scanning continues after them; in particular
`removeTag("<>") = "<>"` and a stand-alone `"<>"` between other tags
survives.  An occurrence of `"<>"` can still be destroyed when an
overlapping tag match starting earlier consumes its characters. -/
theorem removeTag_amended :
    (∀ fuel s, removeTagFuel (fuel + 2) ('<' :: '>' :: s) =
      '<' :: '>' :: removeTagFuel fuel s) ∧
    removeTag ("<>".toList) true = "<>".toList ∧
    removeTag ("a<b>c<>d".toList) true = "ac<>d".toList := by
  refine ⟨?_, by decide, by decide⟩
  intro fuel s
  rfl

/- ------------------------------------------------------------------ -/
/- toWordArray (utils.ts lines 72-82)                                  -/
/- ------------------------------------------------------------------ -/

/-- Whitespace part of the regex `\s*\S*` matching at the start of `r`. -/
def wsOf (r : List Char) : List Char := r.takeWhile isSpaceJS

/-- Non-whitespace part of the regex `\s*\S*` matching at the start of
`r`. -/
def wdOf (r : List Char) : List Char :=
  (r.dropWhile isSpaceJS).takeWhile (fun c => !isSpaceJS c)

/-- One `strReg.exec(text)` step of `toWordArray` at the current
`lastIndex`: the global regex `\s*\S*` matches at every position up to and
including the end of the string (both parts may be empty), and `lastIndex`
moves to the end of the match; an out-of-range `lastIndex` makes `exec`
return `null` (`none`). -/
def execWS (text : List Char) (last : Nat) : Option (List Char × Nat) :=
  if last ≤ text.length then
    some (wsOf (text.drop last) ++ wdOf (text.drop last),
      last + ((wsOf (text.drop last)).length + (wdOf (text.drop last)).length))
  else none

/-- JavaScript `String.prototype.trim`: drop the `\s` class from both
ends. -/
def jsTrim (s : List Char) : List Char :=
  ((s.dropWhile isSpaceJS).reverse.dropWhile isSpaceJS).reverse

/-- The `while (word)` loop of `toWordArray`.  One unit of fuel is spent per
iteration; every iteration that pushes a word advances `lastIndex` by at
least one character, so `text.length + 1` units always suffice (proved
below).  `none` embeds the two abnormal outcomes — a `TypeError` thrown by
indexing a `null` match, or failure to finish within the budget — and the
main theorem shows neither occurs. -/
def toWordArrayGo : Nat → List Char → Nat → Option (List (List Char))
  | 0, _, _ => none
  | fuel + 1, text, last =>
    match execWS text last with
    | none => none
    | some (m, last') =>
      if jsTrim m = [] then some []
      else
        match toWordArrayGo fuel text last' with
        | none => none
        | some rest => some (jsTrim m :: rest)

/-- Embedding of `toWordArray(text)`: run the exec loop from
`lastIndex = 0` with the sufficient iteration budget. -/
def toWordArrayRun (text : List Char) : Option (List (List Char)) :=
  toWordArrayGo (text.length + 1) text 0

/-- Cursor-based reference tokenizer; `cur` holds the reversed characters of
the word being read. -/
def tokGo : List Char → List Char → List (List Char)
  | cur, [] => if cur.isEmpty then [] else [cur.reverse]
  | cur, c :: rest =>
    if isSpaceJS c then
      if cur.isEmpty then tokGo [] rest else cur.reverse :: tokGo [] rest
    else tokGo (c :: cur) rest

/-- Whitespace-delimited tokens of a string, in order, without empties. -/
def tokenize (s : List Char) : List (List Char) := tokGo [] s

theorem drop_length_takeWhile (p : Char → Bool) (l : List Char) :
    l.drop (l.takeWhile p).length = l.dropWhile p := by
  induction l with
  | nil => rfl
  | cons c t ih =>
    by_cases h : p c
    · simp [List.takeWhile_cons_of_pos h, List.dropWhile_cons_of_pos h, ih]
    · simp [List.takeWhile_cons_of_neg h, List.dropWhile_cons_of_neg h]

theorem dropWhile_all_false {p : Char → Bool} {l : List Char}
    (h : ∀ c ∈ l, p c = false) : l.dropWhile p = l := by
  cases l with
  | nil => rfl
  | cons c t =>
    have hc := h c (List.mem_cons_self c t)
    rw [List.dropWhile_cons_of_neg (by simp [hc])]

theorem length_takeWhile_le (p : Char → Bool) (l : List Char) :
    (l.takeWhile p).length ≤ l.length := by
  induction l with
  | nil => simp
  | cons c t ih =>
    rw [List.takeWhile_cons]
    split
    · simpa using ih
    · simp

theorem jsTrim_all_space {ws : List Char}
    (hws : ∀ c ∈ ws, isSpaceJS c = true) : jsTrim ws = [] := by
  have h1 : ws.dropWhile isSpaceJS = [] :=
    List.dropWhile_eq_nil_iff.mpr (by simpa using hws)
  unfold jsTrim
  rw [h1]
  rfl

theorem jsTrim_append_word {ws wd : List Char}
    (hws : ∀ c ∈ ws, isSpaceJS c = true)
    (hwd : ∀ c ∈ wd, isSpaceJS c = false) :
    jsTrim (ws ++ wd) = wd := by
  unfold jsTrim
  rw [List.dropWhile_append_of_pos (by simpa using hws)]
  rw [dropWhile_all_false hwd]
  rw [dropWhile_all_false (fun c hc => hwd c (List.mem_reverse.mp hc))]
  exact List.reverse_reverse wd

theorem wsOf_all (r : List Char) : ∀ c ∈ wsOf r, isSpaceJS c = true :=
  fun _ hc => List.mem_takeWhile_imp hc

theorem wdOf_all (r : List Char) : ∀ c ∈ wdOf r, isSpaceJS c = false := by
  intro c hc
  have := List.mem_takeWhile_imp hc
  simpa using this

theorem ws_wd_le (r : List Char) :
    (wsOf r).length + (wdOf r).length ≤ r.length := by
  have h1 : (wsOf r).length + (r.dropWhile isSpaceJS).length = r.length := by
    conv_rhs => rw [← List.takeWhile_append_dropWhile isSpaceJS r]
    rw [List.length_append]
    rfl
  have h2 : (wdOf r).length ≤ (r.dropWhile isSpaceJS).length :=
    length_takeWhile_le _ _
  omega

theorem drop_ws_wd (r : List Char) :
    r.drop ((wsOf r).length + (wdOf r).length)
      = (r.dropWhile isSpaceJS).dropWhile (fun c => !isSpaceJS c) := by
  unfold wsOf wdOf
  rw [← List.drop_drop, drop_length_takeWhile, drop_length_takeWhile]

theorem wsOf_wdOf_decomp (r : List Char) :
    wsOf r ++ (wdOf r ++
      (r.dropWhile isSpaceJS).dropWhile (fun c => !isSpaceJS c)) = r := by
  unfold wsOf wdOf
  rw [List.takeWhile_append_dropWhile, List.takeWhile_append_dropWhile]

theorem tokGo_space (ws : List Char) (hws : ∀ c ∈ ws, isSpaceJS c = true) :
    ∀ t, tokGo [] (ws ++ t) = tokGo [] t := by
  induction ws with
  | nil => intro t; rfl
  | cons c w ih =>
    intro t
    have hc := hws c (List.mem_cons_self c w)
    rw [List.cons_append, tokGo, hc]
    simp only [if_true, List.isEmpty_nil]
    exact ih (fun d hd => hws d (List.mem_cons.mpr (Or.inr hd))) t

theorem tokGo_word (wd : List Char) (hwd : ∀ c ∈ wd, isSpaceJS c = false) :
    ∀ acc t, tokGo acc (wd ++ t) = tokGo (wd.reverse ++ acc) t := by
  induction wd with
  | nil => intro acc t; simp
  | cons c w ih =>
    intro acc t
    have hc := hwd c (List.mem_cons_self c w)
    rw [List.cons_append, tokGo, hc]
    simp only [Bool.false_eq_true, if_false]
    rw [ih (fun d hd => hwd d (List.mem_cons.mpr (Or.inr hd))) (c :: acc) t]
    simp [List.append_assoc]

theorem tokenize_word_out (wd t : List Char) (hne : wd ≠ [])
    (hwd : ∀ c ∈ wd, isSpaceJS c = false)
    (ht : ∀ c, t.head? = some c → isSpaceJS c = true) :
    tokenize (wd ++ t) = wd :: tokenize t := by
  unfold tokenize
  rw [tokGo_word wd hwd [] t, List.append_nil]
  have hrev : wd.reverse.isEmpty = false := by
    cases hr : wd.reverse with
    | nil => exact absurd (List.reverse_eq_nil_iff.mp hr) hne
    | cons _ _ => rfl
  cases t with
  | nil =>
    rw [tokGo, hrev]
    simp [tokGo]
  | cons c t' =>
    have hc := ht c rfl
    rw [tokGo, hc]
    simp only [if_true, hrev, Bool.false_eq_true, if_false,
      List.reverse_reverse]
    rw [show tokGo [] (c :: t') = tokGo [] t' by rw [tokGo, hc]; simp]

theorem tokGo_all_space_aux (s : List Char)
    (h : ∀ c ∈ s, isSpaceJS c = true) : tokGo [] s = [] := by
  induction s with
  | nil => rfl
  | cons c t ih =>
    have hc := h c (List.mem_cons_self c t)
    rw [tokGo, hc]
    simp only [if_true, List.isEmpty_nil]
    exact ih (fun d hd => h d (List.mem_cons.mpr (Or.inr hd)))

theorem toWordArrayGo_succ (fuel : Nat) (text : List Char) (last : Nat)
    (h : last ≤ text.length) :
    toWordArrayGo (fuel + 1) text last =
      if jsTrim (wsOf (text.drop last) ++ wdOf (text.drop last)) = [] then
        some []
      else
        match toWordArrayGo fuel text
            (last + ((wsOf (text.drop last)).length
              + (wdOf (text.drop last)).length)) with
        | none => none
        | some rest =>
          some (jsTrim (wsOf (text.drop last) ++ wdOf (text.drop last))
            :: rest) := by
  rw [toWordArrayGo, execWS, if_pos h]

theorem wdOf_nil_all_space {r : List Char} (h : wdOf r = []) :
    ∀ c ∈ r, isSpaceJS c = true := by
  have hdw : r.dropWhile isSpaceJS = [] := by
    cases hdwc : r.dropWhile isSpaceJS with
    | nil => rfl
    | cons d rest =>
      exfalso
      have hd : isSpaceJS d = false := by
        have := List.head?_dropWhile_not isSpaceJS r
        rw [hdwc] at this
        simpa using this
      unfold wdOf at h
      rw [hdwc, List.takeWhile_cons_of_pos (by simp [hd])] at h
      cases h
  exact fun c hc => List.dropWhile_eq_nil_iff.mp hdw c hc

theorem toWordArrayGo_eq :
    ∀ fuel text last, last ≤ text.length → text.length - last < fuel →
      toWordArrayGo fuel text last = some (tokenize (text.drop last)) := by
  intro fuel
  induction fuel with
  | zero => intro text last h1 h2; omega
  | succ fuel ih =>
    intro text last h1 h2
    rw [toWordArrayGo_succ fuel text last h1]
    by_cases hwd : wdOf (text.drop last) = []
    · have hall : ∀ c ∈ text.drop last, isSpaceJS c = true :=
        wdOf_nil_all_space hwd
      have hm : jsTrim (wsOf (text.drop last) ++ wdOf (text.drop last))
          = [] := by
        rw [hwd, List.append_nil]
        exact jsTrim_all_space (wsOf_all _)
      rw [if_pos hm]
      rw [show tokenize (text.drop last) = [] from
        tokGo_all_space_aux _ hall]
    · have hm : jsTrim (wsOf (text.drop last) ++ wdOf (text.drop last))
          = wdOf (text.drop last) :=
        jsTrim_append_word (wsOf_all _) (wdOf_all _)
      rw [hm, if_neg hwd]
      have hlen : (text.drop last).length = text.length - last := by
        simp
      have hle := ws_wd_le (text.drop last)
      have hpos : 0 < (wdOf (text.drop last)).length :=
        List.length_pos.mpr hwd
      have hlast' : last + ((wsOf (text.drop last)).length
          + (wdOf (text.drop last)).length) ≤ text.length := by
        omega
      have hfuel : text.length - (last + ((wsOf (text.drop last)).length
          + (wdOf (text.drop last)).length)) < fuel := by
        omega
      rw [ih text _ hlast' hfuel]
      have hdrop : text.drop (last + ((wsOf (text.drop last)).length
          + (wdOf (text.drop last)).length))
          = ((text.drop last).dropWhile isSpaceJS).dropWhile
              (fun c => !isSpaceJS c) := by
        rw [← drop_ws_wd (text.drop last), List.drop_drop]
      rw [hdrop]
      have hdecomp : tokenize (text.drop last)
          = wdOf (text.drop last)
            :: tokenize (((text.drop last).dropWhile isSpaceJS).dropWhile
                (fun c => !isSpaceJS c)) := by
        conv_lhs => rw [← wsOf_wdOf_decomp (text.drop last)]
        unfold tokenize
        rw [tokGo_space _ (wsOf_all _)]
        rw [show tokGo ([] : List Char)
            (wdOf (text.drop last)
              ++ ((text.drop last).dropWhile isSpaceJS).dropWhile
                  (fun c => !isSpaceJS c))
          = wdOf (text.drop last)
            :: tokGo []
              (((text.drop last).dropWhile isSpaceJS).dropWhile
                (fun c => !isSpaceJS c)) from
          tokenize_word_out _ _ hwd (wdOf_all _) ?_]
        intro c hc
        have := List.head?_dropWhile_not (fun c => !isSpaceJS c)
          ((text.drop last).dropWhile isSpaceJS)
        rw [hc] at this
        simpa using this
      rw [hdecomp]

theorem tokGo_mem :
    ∀ s cur w, (∀ c ∈ cur, isSpaceJS c = false) → w ∈ tokGo cur s →
      w ≠ [] ∧ ∀ c ∈ w, isSpaceJS c = false := by
  intro s
  induction s with
  | nil =>
    intro cur w hcur hw
    rw [tokGo] at hw
    by_cases hc : cur.isEmpty
    · rw [if_pos hc] at hw
      cases hw
    · rw [if_neg hc] at hw
      have hwc : w = cur.reverse := List.mem_singleton.mp hw
      subst hwc
      constructor
      · intro h
        exact hc (by simp [List.reverse_eq_nil_iff.mp h])
      · intro c hcmem
        exact hcur c (List.mem_reverse.mp hcmem)
  | cons c rest ih =>
    intro cur w hcur hw
    rw [tokGo] at hw
    by_cases hsp : isSpaceJS c = true
    · rw [if_pos hsp] at hw
      by_cases hce : cur.isEmpty
      · rw [if_pos hce] at hw
        exact ih [] w (by simp) hw
      · rw [if_neg hce] at hw
        rcases List.mem_cons.mp hw with hwc | hwr
        · subst hwc
          constructor
          · intro h
            exact hce (by simp [List.reverse_eq_nil_iff.mp h])
          · intro d hdmem
            exact hcur d (List.mem_reverse.mp hdmem)
        · exact ih [] w (by simp) hwr
    · rw [if_neg hsp] at hw
      refine ih (c :: cur) w ?_ hw
      intro d hd
      rcases List.mem_cons.mp hd with hdc | hdc
      · subst hdc
        exact Bool.not_eq_true _ ▸ (by simpa using hsp)
      · exact hcur d hdc

theorem tokGo_flatten :
    ∀ s cur, (tokGo cur s).flatten
      = cur.reverse ++ s.filter (fun c => !isSpaceJS c) := by
  intro s
  induction s with
  | nil =>
    intro cur
    rw [tokGo]
    by_cases hc : cur.isEmpty
    · rw [if_pos hc]
      have hcur : cur = [] := by
        cases cur
        · rfl
        · cases hc
      simp [hcur]
    · rw [if_neg hc]
      simp
  | cons c rest ih =>
    intro cur
    rw [tokGo]
    by_cases hsp : isSpaceJS c = true
    · rw [if_pos hsp]
      by_cases hce : cur.isEmpty
      · rw [if_pos hce]
        have hcur : cur = [] := by
          cases cur
          · rfl
          · cases hce
        rw [ih []]
        simp [hcur, List.filter_cons, hsp]
      · rw [if_neg hce]
        rw [List.flatten_cons, ih []]
        simp [List.filter_cons, hsp]
    · rw [if_neg hsp]
      rw [ih (c :: cur)]
      have hspf : isSpaceJS c = false := by
        cases h : isSpaceJS c
        · rfl
        · exact absurd h hsp
      simp [List.filter_cons, hspf, List.append_assoc]

/-- C5: the exec loop of `toWordArray` terminates within `text.length + 1`
iterations for every finite input and returns (without throwing) exactly the
whitespace-delimited tokens of the input: every token is non-empty and free
of whitespace, the tokens concatenate (in left-to-right order) to the
non-whitespace characters of the input, an all-whitespace input yields `[]`,
and `toWordArray("  hello   world  ") = ["hello", "world"]`. -/
theorem toWordArray_spec :
    (∀ s, toWordArrayRun s = some (tokenize s)) ∧
    (∀ s w, w ∈ tokenize s → w ≠ [] ∧ ∀ c ∈ w, isSpaceJS c = false) ∧
    (∀ s, (∀ c ∈ s, isSpaceJS c = true) → tokenize s = []) ∧
    (∀ s, (tokenize s).flatten = s.filter (fun c => !isSpaceJS c)) ∧
    toWordArrayRun ("  hello   world  ".toList)
      = some ["hello".toList, "world".toList] := by
  have hrun : ∀ s, toWordArrayRun s = some (tokenize s) := by
    intro s
    have h := toWordArrayGo_eq (s.length + 1) s 0 (Nat.zero_le _) (by omega)
    simpa [toWordArrayRun] using h
  refine ⟨hrun, ?_, ?_, ?_, ?_⟩
  · intro s w hw
    exact tokGo_mem s [] w (by simp) hw
  · intro s h
    exact tokGo_all_space_aux s h
  · intro s
    simpa using tokGo_flatten s []
  · rw [hrun ("  hello   world  ".toList)]
    decide

/-- C5 witness: the token-shape part of `toWordArray_spec` instantiated at
the documented example, and the all-whitespace part at `"   "`. -/
theorem toWordArray_spec_witness :
    ("hello".toList ≠ [] ∧ ∀ c ∈ "hello".toList, isSpaceJS c = false) ∧
    tokenize ("   ".toList) = [] :=
  ⟨toWordArray_spec.2.1 ("  hello   world  ".toList) ("hello".toList)
      (by decide),
   toWordArray_spec.2.2.1 ("   ".toList) (by decide)⟩

/-- C2 (code bug): the claim says no exported function throws on its
documented input space, in particular `padStart`/`padEnd` for any
`expectCount`.  But `padEnd("abcde", "-", 3)` throws a `RangeError`
(`Array(expectCount - len)` with a negative argument), embedded here as
`none`.  The `toWordArray` part of the claim does hold: the exec loop never
dereferences a `null` match and always returns. -/
theorem padEnd_throws_toWordArray_safe :
    padEnd (.str ("abcde".toList)) ("-".toList) 3 = none ∧
    (∀ s, (toWordArrayRun s).isSome = true) := by
  refine ⟨by decide, ?_⟩
  intro s
  rw [toWordArrayRun,
    toWordArrayGo_eq (s.length + 1) s 0 (Nat.zero_le _) (by omega)]
  rfl

/- ------------------------------------------------------------------ -/
/- collapseMultiline (utils.ts lines 352-369)                          -/
/- ------------------------------------------------------------------ -/

/-- Model of `text.split(sep)` for a single separator character (the source
splits on `/\n/` and on `"."`). -/
def splitOnCharList (sep : Char) : List Char → List (List Char)
  | [] => [[]]
  | c :: rest =>
    if c = sep then [] :: splitOnCharList sep rest
    else consHead c (splitOnCharList sep rest)

/-- The `forEach` loop of `collapseMultiline`: `cnt` counts the current run
of blank lines (`isBreak`, the negation of `/[^\s]/.test(str)`); a blank
line is kept only while the incremented counter stays below `allow`, a
non-blank line is always kept and resets the counter. -/
def collapseGo (allow : Int) : Int → List (List Char) → List (List Char)
  | _, [] => []
  | cnt, str :: rest =>
    if str.all isSpaceJS then
      if cnt + 1 < allow then str :: collapseGo allow (cnt + 1) rest
      else collapseGo allow (cnt + 1) rest
    else str :: collapseGo allow 0 rest

/-- Embedding of `collapseMultiline(text, allow)`: split on newlines, run
the counting loop, rejoin with newline. -/
def collapseMultiline (text : List Char) (allow : Int) : List Char :=
  joinSep ['\n'] (collapseGo allow 0 (splitOnCharList '\n' text))

theorem collapseGo_lead_blanks (allow : Int) :
    ∀ lines (cnt : Int),
      ((collapseGo allow cnt lines).takeWhile
        (fun l => l.all isSpaceJS)).length ≤ (allow - 1 - cnt).toNat := by
  intro lines
  induction lines with
  | nil => intro cnt; simp [collapseGo]
  | cons str rest ih =>
    intro cnt
    rw [collapseGo]
    by_cases hb : str.all isSpaceJS = true
    · rw [if_pos hb]
      by_cases h1 : cnt + 1 < allow
      · rw [if_pos h1]
        rw [List.takeWhile_cons_of_pos (by simpa using hb)]
        have := ih (cnt + 1)
        simp only [List.length_cons]
        omega
      · rw [if_neg h1]
        have := ih (cnt + 1)
        omega
    · rw [if_neg hb]
      rw [List.takeWhile_cons_of_neg (by simpa using hb)]
      simp

theorem blank_prefix_le (P : List Char → Bool) :
    ∀ (r b out : List (List Char)), (∀ l ∈ r, P l = true) →
      out = r ++ b → r.length ≤ (out.takeWhile P).length := by
  intro r
  induction r with
  | nil => intro b out _ _; simp
  | cons x r' ih =>
    intro b out hall hout
    subst hout
    rw [List.cons_append,
      List.takeWhile_cons_of_pos
        (by simpa using hall x (List.mem_cons_self x r'))]
    simp only [List.length_cons]
    have := ih b (r' ++ b)
      (fun l hl => hall l (List.mem_cons.mpr (Or.inr hl))) rfl
    omega

theorem collapseGo_run_bound (allow : Int) :
    ∀ lines (cnt : Int), 0 ≤ cnt →
      ∀ a r b, collapseGo allow cnt lines = a ++ r ++ b → r ≠ [] →
        (∀ l ∈ r, l.all isSpaceJS = true) → (r.length : Int) ≤ allow - 1 := by
  intro lines
  induction lines with
  | nil =>
    intro cnt _ a r b heq hr _
    rw [collapseGo] at heq
    have h1 := heq.symm
    rw [List.append_eq_nil] at h1
    rw [List.append_eq_nil] at h1
    exact absurd h1.1.2 hr
  | cons str rest ih =>
    intro cnt hcnt a r b heq hr hall
    rw [collapseGo] at heq
    by_cases hb : str.all isSpaceJS = true
    · rw [if_pos hb] at heq
      by_cases h1 : cnt + 1 < allow
      · rw [if_pos h1] at heq
        cases a with
        | nil =>
          simp only [List.nil_append] at heq
          cases r with
          | nil => exact absurd rfl hr
          | cons x r' =>
            simp only [List.cons_append] at heq
            injection heq with hx hout
            have hblank' : ∀ l ∈ r', l.all isSpaceJS = true :=
              fun l hl => hall l (List.mem_cons.mpr (Or.inr hl))
            have hpre := blank_prefix_le (fun l => l.all isSpaceJS) r' b
              (collapseGo allow (cnt + 1) rest) hblank' hout
            have hlead := collapseGo_lead_blanks allow rest (cnt + 1)
            simp only [List.length_cons]
            push_cast
            omega
        | cons x a' =>
          simp only [List.cons_append] at heq
          injection heq with hx hout
          exact ih (cnt + 1) (by omega) a' r b hout hr hall
      · rw [if_neg h1] at heq
        exact ih (cnt + 1) (by omega) a r b heq hr hall
    · rw [if_neg hb] at heq
      cases a with
      | nil =>
        simp only [List.nil_append] at heq
        cases r with
        | nil => exact absurd rfl hr
        | cons x r' =>
          simp only [List.cons_append] at heq
          injection heq with hx hout
          have hxb := hall x (List.mem_cons_self x r')
          rw [← hx] at hxb
          exact absurd hxb hb
      | cons x a' =>
        simp only [List.cons_append] at heq
        injection heq with hx hout
        exact ih 0 (by omega) a' r b hout hr hall

theorem collapseGo_filter (allow : Int) :
    ∀ lines (cnt : Int),
      (collapseGo allow cnt lines).filter (fun l => !l.all isSpaceJS)
        = lines.filter (fun l => !l.all isSpaceJS) := by
  intro lines
  induction lines with
  | nil => intro cnt; rfl
  | cons str rest ih =>
    intro cnt
    rw [collapseGo]
    by_cases hb : str.all isSpaceJS = true
    · have hfb : (!str.all isSpaceJS) = false := by simp [hb]
      by_cases h1 : cnt + 1 < allow
      · rw [if_pos hb, if_pos h1]
        simp only [List.filter_cons, hfb, Bool.false_eq_true, if_false]
        exact ih (cnt + 1)
      · rw [if_pos hb, if_neg h1]
        simp only [List.filter_cons, hfb, Bool.false_eq_true, if_false]
        exact ih (cnt + 1)
    · have hfb : (!str.all isSpaceJS) = true := by simp [hb]
      rw [if_neg hb]
      simp only [List.filter_cons, hfb, if_true]
      rw [ih 0]

/-- C7: `collapseMultiline` splits on newlines, runs the counting loop from
`cnt = 0` and rejoins with newline; in the kept lines every non-empty
contiguous run of blank lines (lines with no non-whitespace character) has
length at most `allow - 1`; non-blank lines are always kept, in order
(the non-blank sublist is preserved exactly); and
`collapseMultiline("a\n\n\n\nb", 2) = "a\n\nb"` keeps exactly one blank
line. -/
theorem collapseMultiline_spec :
    (∀ text allow, collapseMultiline text allow
      = joinSep ['\n'] (collapseGo allow 0 (splitOnCharList '\n' text))) ∧
    (∀ allow lines a r b, collapseGo allow 0 lines = a ++ r ++ b → r ≠ [] →
      (∀ l ∈ r, l.all isSpaceJS = true) → (r.length : Int) ≤ allow - 1) ∧
    (∀ allow lines,
      (collapseGo allow 0 lines).filter (fun l => !l.all isSpaceJS)
        = lines.filter (fun l => !l.all isSpaceJS)) ∧
    collapseMultiline ("a\n\n\n\nb".toList) 2 = "a\n\nb".toList := by
  refine ⟨fun text allow => rfl, ?_, ?_, by decide⟩
  · intro allow lines a r b heq hr hall
    exact collapseGo_run_bound allow lines 0 (by omega) a r b heq hr hall
  · intro allow lines
    exact collapseGo_filter allow lines 0

/-- C7 witness: the run-length bound of `collapseMultiline_spec` applied to
the documented example — the single blank line kept between `a` and `b`
satisfies the bound `1 ≤ allow - 1` with `allow = 2`. -/
theorem collapseMultiline_spec_witness :
    ((List.length [([] : List Char)] : Int) ≤ 2 - 1) :=
  collapseMultiline_spec.2.1 2 (splitOnCharList '\n' ("a\n\n\n\nb".toList))
    [['a']] [([] : List Char)] [['b']] (by decide) (by decide) (by decide)

/- ------------------------------------------------------------------ -/
/- toCurrencyFormat (utils.ts lines 198-236)                           -/
/- ------------------------------------------------------------------ -/

/-- Shape check for the sign-stripped part of a plain decimal string: at
least one digit, optionally followed by a dot and at least one more
digit. -/
def isNumberBody (t : List Char) : Bool :=
  (!(t.takeWhile Char.isDigit).isEmpty) &&
    ((t.drop (t.takeWhile Char.isDigit).length).isEmpty ||
      ((t.drop (t.takeWhile Char.isDigit).length).head? == some '.' &&
        (!(t.drop (t.takeWhile Char.isDigit).length).tail.isEmpty) &&
        (t.drop (t.takeWhile Char.isDigit).length).tail.all Char.isDigit))

/-- Modelled from the spec: the external numeric predicate `isNumber`
(imported from `../number/utils`, which is not part of the sources)
"reports whether it represents a valid finite number".  It is modelled on
string values in plain decimal notation: an optional minus sign, at least
one digit, and an optional fractional part of a dot followed by at least
one digit.  A numeric `price` reaches the function body only through its
string form `String(price)`, so `toCurrencyFormat` is embedded over that
decimal string.  Numeric spellings the host also accepts but that are not
plain decimal — exponent forms such as `"1e5"`, bare-dot forms such as
`".5"`, hex forms — are outside this embedding, so the pass-through theorem
is keyed on `nonNumericChar` (characters that occur in no numeric spelling
at all) rather than on the negation of this predicate. -/
def isNumberStr (s : List Char) : Bool :=
  isNumberBody (if s.head? == some '-' then s.tail else s)

/-- Value of a decimal digit character (`'7'` to `7`). -/
def charToDigit (c : Char) : Nat := c.toNat - 48

/-- Decimal digit character of a value below ten (`7` to `'7'`). -/
def digitToChar (d : Nat) : Char := Char.ofNat (48 + d)

/-- Value of a big-endian decimal digit string, i.e. `Number` on an integer
string (the empty string gives `0`, matching `Number("")`). -/
def natOfDigits (ds : List Char) : Nat :=
  ds.foldl (fun acc c => 10 * acc + charToDigit c) 0

/-- Little-endian decimal digits of a positive number; the fuel falls by
one per step while the value falls by a factor of ten, so `fuel = n`
always suffices. -/
def digitsRevFuel : Nat → Nat → List Char
  | 0, _ => []
  | _ + 1, 0 => []
  | fuel + 1, n + 1 =>
    digitToChar ((n + 1) % 10) :: digitsRevFuel fuel ((n + 1) / 10)

/-- Big-endian decimal digit string of `n` (`0` prints as `"0"`). -/
def digitsOfNat (n : Nat) : List Char :=
  if n = 0 then ['0'] else (digitsRevFuel n n).reverse

/-- Floor of the base-two logarithm by repeated halving; the fuel falls by
one per halving, so `fuel = n` always suffices. -/
def floorLog2Fuel : Nat → Nat → Nat
  | 0, _ => 0
  | fuel + 1, n => if n < 2 then 0 else floorLog2Fuel fuel (n / 2) + 1

/-- Floor of the base-two logarithm (`0` at `0` and `1`). -/
def floorLog2 (n : Nat) : Nat := floorLog2Fuel n n

/-- Rounding of an exact integer to the nearest IEEE double, ties to even,
in exact integer arithmetic: below `2 ^ 53` every integer is exactly
representable; above, the value is rounded to the nearest multiple of the
unit in the last place, `2 ^ (exponent - 52)`.  This is what `Number`
produces on an integer string; faithful below the double overflow
threshold near `2 ^ 1024`, far above everything this embedding admits. -/
def roundDouble (n : Nat) : Nat :=
  if n < 2 ^ 53 then n
  else
    let ulp := 2 ^ (floorLog2 n - 52)
    let q := n / ulp
    let r := n % ulp
    if 2 * r < ulp then q * ulp
    else if ulp < 2 * r then (q + 1) * ulp
    else if q % 2 = 0 then q * ulp
    else (q + 1) * ulp

/-- `Number(s).toFixed(1)` on the integer part `splits[0]` of a decimal
string: the decimal digits of the value rounded to the nearest host double
(`roundDouble`) followed by `".0"`, the sign preserved
(`Number("-0").toFixed(1) = "-0.0"`).  Faithful whenever the value stays
below `10 ^ 21`: past that bound `toFixed` switches to exponent notation,
which is outside this embedding — the main theorem restricts the integer
part to at most 20 digits accordingly. -/
def jsToFixed1 (s : List Char) : List Char :=
  if s.head? == some '-' then
    '-' :: (digitsOfNat (roundDouble (natOfDigits s.tail)) ++ ['.', '0'])
  else digitsOfNat (roundDouble (natOfDigits s)) ++ ['.', '0']

/-- The lookahead `(?=(\d{3})+\.)` of the thousands regex: some positive
multiple of three digits follows, then a literal dot. -/
def lookahead3 : List Char → Bool
  | d1 :: d2 :: d3 :: rest =>
    d1.isDigit && d2.isDigit && d3.isDigit &&
      (rest.head? == some '.' || lookahead3 rest)
  | _ => false

/-- Global replacement `replace(/\d(?=(\d{3})+\.)/g, $& + replaceChar)`:
after every digit whose lookahead succeeds, the separator is inserted. -/
def thousandsReplace (rep : List Char) : List Char → List Char
  | [] => []
  | c :: rest =>
    (if c.isDigit && lookahead3 rest then c :: rep else [c])
      ++ thousandsReplace rep rest

/-- The local `normal` of `toCurrencyFormat` before the final cut:
`Number(splits[0]).toFixed(1)` with the thousands replacement applied. -/
def normal1Of (price rep : List Char) : List Char :=
  thousandsReplace rep (jsToFixed1 ((splitOnCharList '.' price).headD []))

/-- The local `normal` of `toCurrencyFormat`: the above with the trailing
`".0"` cut off by `substring(0, length - 2)`. -/
def thousandsNormal (price rep : List Char) : List Char :=
  (normal1Of price rep).take ((normal1Of price rep).length - 2)

/-- The local `hasPoint` of `toCurrencyFormat`: `/\./.test(safeStr)`. -/
def hasPointOf (price : List Char) : Bool :=
  price.any (fun c => c == '.')

/-- The local `decimal` of `toCurrencyFormat`: `splits[1]` when the input
contains a dot, the empty string otherwise. -/
def decimalOf (price : List Char) : List Char :=
  if hasPointOf price then ((splitOnCharList '.' price).drop 1).headD []
  else []

/-- The `fixed > 0` branch of `toCurrencyFormat`: the fractional part
zero-padded or truncated to exactly `fixed` digits. -/
def decimalPadded (price : List Char) (fixed : Nat) : List Char :=
  if (decimalOf price).length < fixed then
    decimalOf price ++ List.replicate (fixed - (decimalOf price).length) '0'
  else (decimalOf price).take fixed

/-- Embedding of `toCurrencyFormat(price, options)` over the decimal string
form of `price`; `fixed` and `replaceChar` are the defaulted option
fields. -/
def toCurrencyFormat (price : List Char) (fixed : Nat) (rep : List Char) :
    List Char :=
  if isNumberStr price = false then price
  else if 0 < fixed then
    thousandsNormal price rep ++ '.' :: decimalPadded price fixed
  else if hasPointOf price then
    thousandsNormal price rep ++ '.' :: decimalOf price
  else thousandsNormal price rep

/-- Thousands grouping as the claim words it: the separator is inserted
after every integer digit that is followed by a positive multiple of three
further integer digits, i.e. every 3 digits from the right. -/
def specGroup (rep : List Char) : List Char → List Char
  | [] => []
  | c :: rest =>
    c :: (if rest.length % 3 = 0 ∧ rest ≠ [] then
            rep ++ specGroup rep rest
          else specGroup rep rest)

/-- Sign of a decimal string, as the claim reads it. -/
def signOf (price : List Char) : List Char :=
  if price.head? == some '-' then ['-'] else []

/-- Integer digits of a decimal string, as the claim reads them. -/
def intDigitsOf (price : List Char) : List Char :=
  (if price.head? == some '-' then price.tail else price).takeWhile
    Char.isDigit

/-- Fractional digits of a decimal string (empty when there is no dot). -/
def fracOf (price : List Char) : List Char :=
  (if price.head? == some '-' then price.tail else price).drop
    ((intDigitsOf price).length + 1)

/-- Whether the decimal string contains a fractional part. -/
def hasFracOf (price : List Char) : Bool :=
  (intDigitsOf price).length
    < (if price.head? == some '-' then price.tail else price).length

/-- Formalisation of the amended claim's description of `toCurrencyFormat`:
for a numeric price, the sign, then the decimal digits of the HOST-DOUBLE
value of the integer part (`Number(splits[0])` — rounded to the nearest
double, ties to even, which preserves the written digits exactly when the
value is below `2 ^ 53`) with `rep` inserted every 3 digits from the right,
then — when `fixed > 0` — a dot and the fractional digits padded/truncated
to exactly `fixed` digits, and — when `fixed = 0` — the unmodified
fractional part exactly when the input contains a dot; a non-numeric price
is returned unchanged. -/
def currencySpec (price : List Char) (fixed : Nat) (rep : List Char) :
    List Char :=
  if isNumberStr price = false then price
  else
    signOf price ++
      specGroup rep
        (digitsOfNat (roundDouble (natOfDigits (intDigitsOf price)))) ++
      (if 0 < fixed then
        '.' :: (if (fracOf price).length < fixed then
            fracOf price ++ List.replicate (fixed - (fracOf price).length) '0'
          else (fracOf price).take fixed)
      else if hasFracOf price then '.' :: fracOf price
      else [])

theorem digit_ne_minus {c : Char} (h : c.isDigit = true) :
    (c == '-') = false := by
  by_cases hc : c = '-'
  · subst hc
    exact absurd h (by decide)
  · exact beq_eq_false_iff_ne.mpr hc

theorem digit_ne_dot {c : Char} (h : c.isDigit = true) : c ≠ '.' := by
  intro hc
  subst hc
  exact absurd h (by decide)

theorem dot_not_mem {s : List Char} (h : ∀ c ∈ s, c.isDigit = true) :
    '.' ∉ s := by
  intro hm
  exact digit_ne_dot (h '.' hm) rfl

theorem splitOnCharList_no_sep {sep : Char} :
    ∀ {s : List Char}, sep ∉ s → splitOnCharList sep s = [s] := by
  intro s
  induction s with
  | nil => intro _; rfl
  | cons c rest ih =>
    intro h
    have hc : ¬ c = sep := fun he => h (he ▸ List.mem_cons_self c rest)
    rw [splitOnCharList, if_neg hc,
      ih (fun hm => h (List.mem_cons.mpr (Or.inr hm)))]
    rfl

theorem splitOnCharList_two {sep : Char} :
    ∀ {a b : List Char}, sep ∉ a → sep ∉ b →
      splitOnCharList sep (a ++ sep :: b) = [a, b] := by
  intro a
  induction a with
  | nil =>
    intro b _ hb
    rw [List.nil_append, splitOnCharList, if_pos rfl,
      splitOnCharList_no_sep hb]
  | cons c a' ih =>
    intro b ha hb
    have hc : ¬ c = sep := fun he => ha (he ▸ List.mem_cons_self c a')
    rw [List.cons_append, splitOnCharList, if_neg hc,
      ih (fun hm => ha (List.mem_cons.mpr (Or.inr hm))) hb]
    rfl

theorem isDigit_toNat {c : Char} (h : c.isDigit = true) :
    48 ≤ c.toNat ∧ c.toNat ≤ 57 := by
  unfold Char.isDigit at h
  simp only [Bool.and_eq_true, decide_eq_true_eq] at h
  obtain ⟨h1, h2⟩ := h
  exact ⟨BitVec.le_def.mp (UInt32.le_def.mp h1),
    BitVec.le_def.mp (UInt32.le_def.mp h2)⟩

theorem char_toNat_inj {a b : Char} (h : a.toNat = b.toNat) : a = b :=
  Char.ext (congrArg UInt32.mk (BitVec.eq_of_toNat_eq h))

theorem charToDigit_le {c : Char} (h : c.isDigit = true) :
    charToDigit c ≤ 9 := by
  obtain ⟨h1, h2⟩ := isDigit_toNat h
  unfold charToDigit
  omega

theorem charToDigit_eq_zero {c : Char} (h : c.isDigit = true)
    (h0 : charToDigit c = 0) : c = '0' := by
  obtain ⟨h1, h2⟩ := isDigit_toNat h
  unfold charToDigit at h0
  apply char_toNat_inj
  show c.toNat = 48
  omega

theorem charToDigit_pos {c : Char} (h : c.isDigit = true) (h0 : c ≠ '0') :
    1 ≤ charToDigit c := by
  by_contra hlt
  exact h0 (charToDigit_eq_zero h (by omega))

theorem digitToChar_isDigit {d : Nat} (h : d ≤ 9) :
    (digitToChar d).isDigit = true := by
  interval_cases d <;> decide

theorem digitToChar_charToDigit {c : Char} (h : c.isDigit = true) :
    digitToChar (charToDigit c) = c := by
  obtain ⟨h1, h2⟩ := isDigit_toNat h
  unfold digitToChar charToDigit
  rw [show 48 + (c.toNat - 48) = c.toNat by omega]
  exact Char.ofNat_toNat c

theorem digitsRevFuel_zero (f : Nat) : digitsRevFuel f 0 = [] := by
  cases f <;> rfl

theorem digitsRevFuel_congr :
    ∀ n f g, n ≤ f → n ≤ g → digitsRevFuel f n = digitsRevFuel g n := by
  intro n
  induction n using Nat.strong_induction_on with
  | _ n ih =>
    intro f g hf hg
    cases n with
    | zero => rw [digitsRevFuel_zero, digitsRevFuel_zero]
    | succ m =>
      cases f with
      | zero => omega
      | succ f' =>
        cases g with
        | zero => omega
        | succ g' =>
          rw [digitsRevFuel, digitsRevFuel]
          congr 1
          exact ih ((m + 1) / 10) (by omega) f' g' (by omega) (by omega)

theorem digitsRevFuel_digits :
    ∀ f n c, c ∈ digitsRevFuel f n → c.isDigit = true := by
  intro f
  induction f with
  | zero => intro n c hc; cases hc
  | succ f ih =>
    intro n c hc
    cases n with
    | zero =>
      rw [digitsRevFuel] at hc
      cases hc
    | succ m =>
      rw [digitsRevFuel] at hc
      rcases List.mem_cons.mp hc with rfl | hc'
      · exact digitToChar_isDigit (by omega)
      · exact ih _ c hc'

theorem digitsOfNat_digits {n : Nat} : ∀ c ∈ digitsOfNat n,
    c.isDigit = true := by
  intro c hc
  unfold digitsOfNat at hc
  by_cases h : n = 0
  · rw [if_pos h] at hc
    rcases List.mem_singleton.mp hc with rfl
    decide
  · rw [if_neg h] at hc
    exact digitsRevFuel_digits n n c (List.mem_reverse.mp hc)

theorem natOfDigits_append_singleton (ds : List Char) (d : Char) :
    natOfDigits (ds ++ [d]) = 10 * natOfDigits ds + charToDigit d := by
  unfold natOfDigits
  rw [List.foldl_append]
  rfl

theorem foldl_digits_ge :
    ∀ (t : List Char) (acc : Nat),
      acc ≤ t.foldl (fun a c => 10 * a + charToDigit c) acc := by
  intro t
  induction t with
  | nil => intro acc; exact Nat.le_refl acc
  | cons x xs ih =>
    intro acc
    rw [List.foldl_cons]
    exact Nat.le_trans (by omega) (ih (10 * acc + charToDigit x))

theorem natOfDigits_pos {c : Char} {t : List Char} (hd : c.isDigit = true)
    (h0 : c ≠ '0') : 0 < natOfDigits (c :: t) := by
  have h1 := charToDigit_pos hd h0
  unfold natOfDigits
  rw [List.foldl_cons]
  have h2 := foldl_digits_ge t (10 * 0 + charToDigit c)
  omega

theorem digitsOfNat_natOfDigits (ds : List Char) :
    ds ≠ [] → (∀ c ∈ ds, c.isDigit = true) →
    (ds.head? ≠ some '0' ∨ ds.length = 1) →
    digitsOfNat (natOfDigits ds) = ds := by
  induction ds using List.reverseRecOn with
  | nil => intro h _ _; exact absurd rfl h
  | append_singleton ds' d ih =>
    intro _ hdig hz
    have hdd : d.isDigit = true := hdig d (by simp)
    have hds' : ∀ c ∈ ds', c.isDigit = true :=
      fun c hc => hdig c (by simp [hc])
    rw [natOfDigits_append_singleton]
    cases ds' with
    | nil =>
      have hle := charToDigit_le hdd
      by_cases h0 : charToDigit d = 0
      · have hd0 : d = '0' := charToDigit_eq_zero hdd h0
        subst hd0
        rw [show natOfDigits ([] : List Char) = 0 from rfl, h0]
        rfl
      · rw [show natOfDigits ([] : List Char) = 0 from rfl]
        rw [show 10 * 0 + charToDigit d = charToDigit d by omega]
        unfold digitsOfNat
        rw [if_neg h0]
        obtain ⟨m, hm⟩ : ∃ m, charToDigit d = m + 1 :=
          ⟨charToDigit d - 1, by omega⟩
        rw [hm, digitsRevFuel]
        rw [show (m + 1) % 10 = m + 1 by omega,
          show (m + 1) / 10 = 0 by omega]
        rw [digitsRevFuel_zero]
        rw [show m + 1 = charToDigit d from hm.symm]
        rw [digitToChar_charToDigit hdd]
        rfl
    | cons c t =>
      simp only [List.cons_append, List.head?_cons, List.length_cons,
        List.length_append] at hz
      have hc0 : c ≠ '0' := by
        rcases hz with h | h
        · intro hc
          exact h (by rw [hc])
        · omega
      have hcd : c.isDigit = true := hds' c (by simp)
      have hpos : 0 < natOfDigits (c :: t) := natOfDigits_pos hcd hc0
      have hcdle := charToDigit_le hdd
      have hIH : digitsOfNat (natOfDigits (c :: t)) = c :: t :=
        ih (by simp) hds'
          (Or.inl (by
            simp only [List.head?_cons]
            intro hh
            exact hc0 (Option.some.inj hh)))
      have hIH' :
          (digitsRevFuel (natOfDigits (c :: t))
            (natOfDigits (c :: t))).reverse = c :: t := by
        have h' := hIH
        unfold digitsOfNat at h'
        rw [if_neg (by omega)] at h'
        exact h'
      unfold digitsOfNat
      rw [if_neg (by omega)]
      obtain ⟨M, hM⟩ :
          ∃ M, 10 * natOfDigits (c :: t) + charToDigit d = M + 1 :=
        ⟨10 * natOfDigits (c :: t) + charToDigit d - 1, by omega⟩
      rw [hM, digitsRevFuel]
      rw [show (M + 1) % 10 = charToDigit d by omega,
        show (M + 1) / 10 = natOfDigits (c :: t) by omega]
      rw [digitsRevFuel_congr (natOfDigits (c :: t)) M (natOfDigits (c :: t))
        (by omega) (Nat.le_refl _)]
      rw [List.reverse_cons, hIH', digitToChar_charToDigit hdd]

theorem roundDouble_small {n : Nat} (h : n < 2 ^ 53) : roundDouble n = n := by
  unfold roundDouble
  rw [if_pos h]

/-- A character that occurs in no spelling of a JavaScript number: not a
digit or letter (letters cover exponent markers, hex/octal/binary prefixes
and digits, `Infinity`, `NaN`), not a sign, not a dot, not whitespace.  Any
string containing such a character yields `Number(s) = NaN`, so the host
predicate `isNumber(price)` is false on it whatever its exact reading of
"valid finite number". -/
def nonNumericChar (c : Char) : Bool :=
  !(c.isDigit || c.isAlpha || c == '+' || c == '-' || c == '.' || isSpaceJS c)

theorem isNumberBody_chars {t : List Char} (h : isNumberBody t = true) :
    ∀ c ∈ t, c.isDigit = true ∨ c = '.' := by
  unfold isNumberBody at h
  simp only [Bool.and_eq_true, Bool.or_eq_true] at h
  obtain ⟨h1, h2⟩ := h
  intro c hc
  have hsplit : t.takeWhile Char.isDigit
      ++ t.drop (t.takeWhile Char.isDigit).length = t := by
    rw [drop_length_takeWhile]
    exact List.takeWhile_append_dropWhile _ _
  rw [← hsplit] at hc
  rcases List.mem_append.mp hc with h3 | h3
  · exact Or.inl (List.mem_takeWhile_imp h3)
  · cases hrest : t.drop (t.takeWhile Char.isDigit).length with
    | nil =>
      rw [hrest] at h3
      cases h3
    | cons r0 rtail =>
      rw [hrest] at h3 h2
      rcases h2 with h2 | h2
      · simp at h2
      · obtain ⟨⟨hh, hne⟩, hall⟩ := h2
        rcases List.mem_cons.mp h3 with rfl | h4
        · have hh' : (c == '.') = true := hh
          exact Or.inr (beq_iff_eq.mp hh')
        · exact Or.inl (List.all_eq_true.mp hall c h4)

theorem isNumberStr_chars {s : List Char} (h : isNumberStr s = true) :
    ∀ c ∈ s, c.isDigit = true ∨ c = '-' ∨ c = '.' := by
  by_cases hm : ((s.head? == some '-') : Bool) = true
  · cases s with
    | nil => exact fun c hc => absurd hc (List.not_mem_nil c)
    | cons a s' =>
      have ha : a = '-' := by
        have h' : (a == '-') = true := hm
        exact beq_iff_eq.mp h'
      subst ha
      have hbody : isNumberBody s' = true := by
        have he : isNumberStr ('-' :: s') = isNumberBody s' := rfl
        rw [← he]
        exact h
      intro c hc
      rcases List.mem_cons.mp hc with rfl | hc'
      · exact Or.inr (Or.inl rfl)
      · rcases isNumberBody_chars hbody c hc' with h1 | h1
        · exact Or.inl h1
        · exact Or.inr (Or.inr h1)
  · have hbody : isNumberBody s = true := by
      have he : isNumberStr s = isNumberBody s := by
        unfold isNumberStr
        rw [if_neg hm]
      rw [← he]
      exact h
    intro c hc
    rcases isNumberBody_chars hbody c hc with h1 | h1
    · exact Or.inl h1
    · exact Or.inr (Or.inr h1)

theorem nonNumeric_isNumberStr_false {s : List Char}
    (h : s.any nonNumericChar = true) : isNumberStr s = false := by
  cases hn : isNumberStr s
  · rfl
  · exfalso
    rcases List.any_eq_true.mp h with ⟨c, hc, hnc⟩
    rcases isNumberStr_chars hn c hc with hd | hd | hd
    · unfold nonNumericChar at hnc
      rw [hd] at hnc
      simp at hnc
    · subst hd
      exact absurd hnc (by decide)
    · subst hd
      exact absurd hnc (by decide)

theorem takeWhile_digits_append {ds rest : List Char}
    (hdig : ∀ c ∈ ds, c.isDigit = true)
    (hrest : rest = [] ∨ ∃ fr, rest = '.' :: fr) :
    (ds ++ rest).takeWhile Char.isDigit = ds := by
  rw [List.takeWhile_append_of_pos hdig]
  rcases hrest with h | ⟨fr, h⟩ <;> subst h
  · simp
  · rw [List.takeWhile_cons_of_neg (by decide)]
    simp

theorem lookahead3_short1 {c : Char} (h : c.isDigit = false) :
    ∀ rest, lookahead3 (c :: rest) = false := by
  intro rest
  cases rest with
  | nil => rfl
  | cons x r =>
    cases r with
    | nil => rfl
    | cons y r' =>
      rw [lookahead3, h]
      simp

theorem lookahead3_short2 {a c : Char} (h : c.isDigit = false) :
    ∀ rest, lookahead3 (a :: c :: rest) = false := by
  intro rest
  cases rest with
  | nil => rfl
  | cons y r' =>
    rw [lookahead3, h]
    simp

theorem lookahead3_digits (t : List Char) :
    ∀ n (ds : List Char), ds.length = n → (∀ c ∈ ds, c.isDigit = true) →
      lookahead3 (ds ++ '.' :: t)
        = decide (3 ≤ ds.length ∧ ds.length % 3 = 0) := by
  intro n
  induction n using Nat.strong_induction_on with
  | _ n ih =>
    intro ds hlen hdig
    cases ds with
    | nil =>
      rw [List.nil_append, lookahead3_short1 (by decide) t]
      simp
    | cons d1 ds1 =>
      cases ds1 with
      | nil =>
        rw [List.cons_append, List.nil_append,
          lookahead3_short2 (by decide) t]
        simp
      | cons d2 ds2 =>
        cases ds2 with
        | nil =>
          have h3 : lookahead3 (d1 :: d2 :: '.' :: t) = false := by
            rw [lookahead3]
            have hdot : ('.' : Char).isDigit = false := by decide
            rw [hdot]
            simp
          simp only [List.cons_append, List.nil_append, h3]
          simp
        | cons d3 ds3 =>
          have hd1 := hdig d1 (by simp)
          have hd2 := hdig d2 (by simp)
          have hd3 := hdig d3 (by simp)
          simp only [List.cons_append]
          rw [lookahead3, hd1, hd2, hd3]
          simp only [Bool.true_and]
          cases ds3 with
          | nil =>
            simp only [List.nil_append, List.head?_cons]
            have hbeq : ((some '.' == some '.') : Bool) = true := by decide
            rw [hbeq]
            simp
          | cons e es =>
            simp only [List.cons_append, List.head?_cons]
            have he := hdig e (by simp)
            have hbeq : ((some e == some '.') : Bool) = false := by
              show (e == '.') = false
              exact beq_eq_false_iff_ne.mpr (digit_ne_dot he)
            rw [hbeq]
            simp only [Bool.false_or]
            rw [← List.cons_append]
            rw [ih (e :: es).length
              (by simp only [List.length_cons] at hlen ⊢; omega)
              (e :: es) rfl (fun c hc => hdig c (by simp at hc ⊢; tauto))]
            rw [decide_eq_decide]
            simp only [List.length_cons]
            omega

theorem thousandsReplace_digits (rep : List Char) :
    ∀ ds : List Char, (∀ c ∈ ds, c.isDigit = true) →
      thousandsReplace rep (ds ++ ['.', '0'])
        = specGroup rep ds ++ ['.', '0'] := by
  intro ds
  induction ds with
  | nil =>
    intro _
    rw [List.nil_append, specGroup, List.nil_append]
    rw [thousandsReplace, thousandsReplace, thousandsReplace]
    have hdot : ('.' : Char).isDigit = false := by decide
    have hl0 : lookahead3 ['0'] = false := rfl
    have hl1 : lookahead3 ([] : List Char) = false := rfl
    rw [hdot, hl0, hl1]
    simp
  | cons c ds' ih =>
    intro hdig
    have hc := hdig c (List.mem_cons_self c ds')
    have hdig' : ∀ d ∈ ds', d.isDigit = true :=
      fun d hd => hdig d (List.mem_cons.mpr (Or.inr hd))
    rw [List.cons_append, thousandsReplace]
    rw [show ds' ++ ['.', '0'] = ds' ++ '.' :: ['0'] from rfl]
    rw [lookahead3_digits ['0'] ds'.length ds' rfl hdig']
    rw [show ds' ++ '.' :: ['0'] = ds' ++ ['.', '0'] from rfl]
    rw [ih hdig', hc, specGroup]
    simp only [Bool.true_and]
    by_cases hcond : ds'.length % 3 = 0 ∧ ds' ≠ []
    · have h3 : 3 ≤ ds'.length := by
        have := List.length_pos.mpr hcond.2
        omega
      rw [if_pos (by simpa using And.intro h3 hcond.1), if_pos hcond]
      simp
    · have hd : decide (3 ≤ ds'.length ∧ ds'.length % 3 = 0) = false := by
        by_cases hz : ds' = []
        · subst hz; decide
        · have := List.length_pos.mpr hz
          have hm : ¬ ds'.length % 3 = 0 := fun hmm => hcond ⟨hmm, hz⟩
          simp [hm]
      rw [hd]
      rw [if_neg hcond]
      simp

theorem head_beq_minus_append {ds rest : List Char} (hne : ds ≠ [])
    (hdig : ∀ c ∈ ds, c.isDigit = true) :
    (((ds ++ rest).head? == some '-') : Bool) = false := by
  cases ds with
  | nil => exact absurd rfl hne
  | cons d ds' =>
    rw [List.cons_append, List.head?_cons]
    show (d == '-') = false
    exact digit_ne_minus (hdig d (List.mem_cons_self d ds'))

theorem dot_not_mem_sgn {sgn ds : List Char} (hsgn : sgn = [] ∨ sgn = ['-'])
    (hdig : ∀ c ∈ ds, c.isDigit = true) : '.' ∉ sgn ++ ds := by
  intro hm
  rcases List.mem_append.mp hm with h | h
  · rcases hsgn with rfl | rfl
    · cases h
    · exact absurd (List.mem_singleton.mp h) (by decide)
  · exact dot_not_mem hdig h

theorem stripSign_shape {sgn ds : List Char} (rest : List Char)
    (hsgn : sgn = [] ∨ sgn = ['-']) (hne : ds ≠ [])
    (hdig : ∀ c ∈ ds, c.isDigit = true) :
    (if ((sgn ++ ds) ++ rest).head? == some '-' then
      ((sgn ++ ds) ++ rest).tail
    else (sgn ++ ds) ++ rest) = ds ++ rest := by
  rcases hsgn with rfl | rfl
  · simp only [List.nil_append]
    rw [head_beq_minus_append hne hdig]
    simp
  · simp only [List.cons_append, List.nil_append]
    rw [show ((('-' :: (ds ++ rest)).head? == some '-') : Bool) = true
      from rfl]
    simp

theorem signOf_shape {sgn ds : List Char} (rest : List Char)
    (hsgn : sgn = [] ∨ sgn = ['-']) (hne : ds ≠ [])
    (hdig : ∀ c ∈ ds, c.isDigit = true) :
    signOf ((sgn ++ ds) ++ rest) = sgn := by
  unfold signOf
  rcases hsgn with rfl | rfl
  · simp only [List.nil_append]
    simp only [head_beq_minus_append hne hdig, Bool.false_eq_true, if_false]
  · simp only [List.cons_append, List.nil_append]
    rfl

theorem isNumberStr_shape {sgn ds rest : List Char}
    (hsgn : sgn = [] ∨ sgn = ['-']) (hne : ds ≠ [])
    (hdig : ∀ c ∈ ds, c.isDigit = true)
    (hrest : rest = [] ∨ ∃ fr, rest = '.' :: fr ∧ fr ≠ [] ∧
      ∀ c ∈ fr, c.isDigit = true) :
    isNumberStr ((sgn ++ ds) ++ rest) = true := by
  have hstrip := stripSign_shape rest hsgn hne hdig
  have htw : (ds ++ rest).takeWhile Char.isDigit = ds :=
    takeWhile_digits_append hdig
      (by rcases hrest with h | ⟨fr, h, _, _⟩
          · exact Or.inl h
          · exact Or.inr ⟨fr, h⟩)
  unfold isNumberStr isNumberBody
  rw [hstrip, htw, List.drop_left]
  rcases hrest with rfl | ⟨fr, rfl, hfrne, hfrdig⟩
  · simp [hne]
  · have hfr : fr.all Char.isDigit = true :=
      List.all_eq_true.mpr (fun c hc => hfrdig c hc)
    simp [hne, hfrne, hfr]

theorem jsToFixed1_shape {sgn ds : List Char}
    (hsgn : sgn = [] ∨ sgn = ['-']) (hne : ds ≠ [])
    (hdig : ∀ c ∈ ds, c.isDigit = true) :
    jsToFixed1 (sgn ++ ds)
      = sgn ++ (digitsOfNat (roundDouble (natOfDigits ds)) ++ ['.', '0']) := by
  unfold jsToFixed1
  rcases hsgn with rfl | rfl
  · simp only [List.nil_append]
    rw [show ((ds.head? == some '-') : Bool)
        = ((ds ++ ([] : List Char)).head? == some '-') from by
      rw [List.append_nil]]
    rw [head_beq_minus_append hne hdig]
    simp only [Bool.false_eq_true, if_false]
  · simp only [List.cons_append, List.nil_append]
    rw [show ((('-' :: ds).head? == some '-') : Bool) = true from rfl]
    simp only [if_true, List.tail_cons]

theorem normal1Of_shape {sgn ds rest : List Char} (rep : List Char)
    (hsgn : sgn = [] ∨ sgn = ['-']) (hne : ds ≠ [])
    (hdig : ∀ c ∈ ds, c.isDigit = true)
    (hrest : rest = [] ∨ ∃ fr, rest = '.' :: fr ∧ fr ≠ [] ∧
      ∀ c ∈ fr, c.isDigit = true) :
    normal1Of ((sgn ++ ds) ++ rest) rep
      = sgn ++ (specGroup rep (digitsOfNat (roundDouble (natOfDigits ds)))
          ++ ['.', '0']) := by
  have hsplit : (splitOnCharList '.' ((sgn ++ ds) ++ rest)).headD []
      = sgn ++ ds := by
    rcases hrest with rfl | ⟨fr, rfl, hfrne, hfrdig⟩
    · rw [List.append_nil, splitOnCharList_no_sep (dot_not_mem_sgn hsgn hdig)]
      rfl
    · rw [splitOnCharList_two (dot_not_mem_sgn hsgn hdig)
        (dot_not_mem hfrdig)]
      rfl
  have hDdig : ∀ c ∈ digitsOfNat (roundDouble (natOfDigits ds)),
      c.isDigit = true := fun c hc => digitsOfNat_digits c hc
  unfold normal1Of
  rw [hsplit, jsToFixed1_shape hsgn hne hdig]
  rcases hsgn with rfl | rfl
  · simp only [List.nil_append]
    exact thousandsReplace_digits rep _ hDdig
  · simp only [List.cons_append, List.nil_append]
    rw [thousandsReplace]
    have hm : ('-' : Char).isDigit = false := by decide
    rw [hm]
    simp only [Bool.false_and, Bool.false_eq_true, if_false]
    rw [thousandsReplace_digits rep _ hDdig]
    rfl

theorem take_sub2 (x y : List Char) :
    (x ++ (y ++ ['.', '0'])).take ((x ++ (y ++ ['.', '0'])).length - 2)
      = x ++ y := by
  have h1 : x ++ (y ++ ['.', '0']) = (x ++ y) ++ ['.', '0'] := by
    simp [List.append_assoc]
  rw [h1]
  have h2 : ((x ++ y) ++ ['.', '0']).length - 2 = (x ++ y).length := by
    simp
    omega
  rw [h2, List.take_left]

theorem thousandsNormal_shape {sgn ds rest : List Char} (rep : List Char)
    (hsgn : sgn = [] ∨ sgn = ['-']) (hne : ds ≠ [])
    (hdig : ∀ c ∈ ds, c.isDigit = true)
    (hrest : rest = [] ∨ ∃ fr, rest = '.' :: fr ∧ fr ≠ [] ∧
      ∀ c ∈ fr, c.isDigit = true) :
    thousandsNormal ((sgn ++ ds) ++ rest) rep
      = sgn ++ specGroup rep (digitsOfNat (roundDouble (natOfDigits ds))) := by
  unfold thousandsNormal
  rw [normal1Of_shape rep hsgn hne hdig hrest]
  exact take_sub2 sgn (specGroup rep (digitsOfNat (roundDouble (natOfDigits ds))))

theorem hasPoint_none {s : List Char} (h : '.' ∉ s) : hasPointOf s = false := by
  unfold hasPointOf
  cases hA : s.any (fun c => c == '.')
  · rfl
  · exfalso
    rcases List.any_eq_true.mp hA with ⟨x, hx, hbeq⟩
    exact h ((beq_iff_eq.mp hbeq) ▸ hx)

theorem hasPoint_some (a b : List Char) : hasPointOf (a ++ '.' :: b) = true := by
  unfold hasPointOf
  exact List.any_eq_true.mpr ⟨'.', by simp, by simp⟩

theorem drop_after_dot (ds fr : List Char) :
    (ds ++ '.' :: fr).drop (ds.length + 1) = fr := by
  rw [show ds ++ '.' :: fr = (ds ++ ['.']) ++ fr by simp]
  rw [show ds.length + 1 = (ds ++ ['.']).length by simp]
  exact List.drop_left _ _

theorem toCurrencyFormat_structured (sgn ds rest : List Char) (fixed : Nat)
    (rep : List Char) (hsgn : sgn = [] ∨ sgn = ['-']) (hne : ds ≠ [])
    (hdig : ∀ c ∈ ds, c.isDigit = true)
    (hrest : rest = [] ∨ ∃ fr, rest = '.' :: fr ∧ fr ≠ [] ∧
      ∀ c ∈ fr, c.isDigit = true) :
    toCurrencyFormat (sgn ++ ds ++ rest) fixed rep
      = currencySpec (sgn ++ ds ++ rest) fixed rep := by
  have hnum := isNumberStr_shape hsgn hne hdig hrest
  have hstrip := stripSign_shape rest hsgn hne hdig
  have hsign := signOf_shape rest hsgn hne hdig
  have htw : (ds ++ rest).takeWhile Char.isDigit = ds :=
    takeWhile_digits_append hdig
      (by rcases hrest with h | ⟨fr, h, _, _⟩
          · exact Or.inl h
          · exact Or.inr ⟨fr, h⟩)
  have hint : intDigitsOf ((sgn ++ ds) ++ rest) = ds := by
    unfold intDigitsOf
    rw [hstrip, htw]
  have hnormal := thousandsNormal_shape rep hsgn hne hdig hrest
  unfold toCurrencyFormat currencySpec
  rw [hnum]
  simp only [Bool.true_eq_false, if_false]
  rw [hsign, hint, hnormal]
  rcases hrest with rfl | ⟨fr, rfl, hfrne, hfrdig⟩
  · have hpoint : hasPointOf ((sgn ++ ds) ++ ([] : List Char)) = false := by
      rw [List.append_nil]
      exact hasPoint_none (dot_not_mem_sgn hsgn hdig)
    have hfrac : fracOf ((sgn ++ ds) ++ ([] : List Char)) = [] := by
      unfold fracOf intDigitsOf
      rw [hstrip, htw, List.append_nil]
      exact List.drop_eq_nil_of_le (by omega)
    have hhf : hasFracOf ((sgn ++ ds) ++ ([] : List Char)) = false := by
      unfold hasFracOf intDigitsOf
      rw [hstrip, htw, List.append_nil]
      simp
    have hdec : decimalOf ((sgn ++ ds) ++ ([] : List Char)) = [] := by
      unfold decimalOf
      rw [hpoint]
      simp
    rw [hpoint, hhf, hfrac]
    unfold decimalPadded
    rw [hdec]
    by_cases hf : 0 < fixed <;> simp [hf]
  · have hpoint : hasPointOf ((sgn ++ ds) ++ '.' :: fr) = true :=
      hasPoint_some (sgn ++ ds) fr
    have hfrac : fracOf ((sgn ++ ds) ++ '.' :: fr) = fr := by
      unfold fracOf intDigitsOf
      rw [hstrip, htw]
      exact drop_after_dot ds fr
    have hhf : hasFracOf ((sgn ++ ds) ++ '.' :: fr) = true := by
      unfold hasFracOf intDigitsOf
      rw [hstrip, htw]
      simp only [decide_eq_true_eq, List.length_append, List.length_cons]
      omega
    have hdec : decimalOf ((sgn ++ ds) ++ '.' :: fr) = fr := by
      unfold decimalOf
      rw [hpoint]
      simp only [if_true]
      rw [splitOnCharList_two (dot_not_mem_sgn hsgn hdig)
        (dot_not_mem hfrdig)]
      rfl
    rw [hpoint, hhf, hfrac]
    unfold decimalPadded
    rw [hdec]
    by_cases hf : 0 < fixed <;> simp [hf]

/-- C6 counterexample: `"9007199254740993"` (the decimal spelling of
`2 ^ 53 + 1`) is numeric and has plain decimal shape, and the claim's
reading — the separator merely inserted every 3 digits from the right into
the integer part's own digits — would give `"9,007,199,254,740,993"`; the
code however sends the integer part through the host double
(`Number(splits[0])`, round to nearest, ties to even) and prints
`"9,007,199,254,740,992"`. -/
theorem toCurrencyFormat_rounding_counterexample :
    isNumberStr ("9007199254740993".toList) = true ∧
    specGroup [','] ("9007199254740993".toList)
      = "9,007,199,254,740,993".toList ∧
    toCurrencyFormat ("9007199254740993".toList) 0 [',']
      = "9,007,199,254,740,992".toList ∧
    toCurrencyFormat ("9007199254740993".toList) 0 [','] ≠
      specGroup [','] ("9007199254740993".toList) :=
  ⟨by decide, by decide, by decide, by decide⟩

/-- C6 amended: for every price of canonical decimal shape (optional minus
sign, at most 20 integer digits — the regime where `toFixed` keeps fixed
notation — optional dot and fractional digits), `toCurrencyFormat` produces
exactly `currencySpec`: the sign, then the decimal digits of the
HOST-DOUBLE value of the integer part with the separator every 3 digits
from the right, then the fraction padded/truncated to `fixed` digits when
`fixed > 0`, and the unmodified fraction exactly when the input has a dot
when `fixed = 0`.  The host-double digits coincide with the written integer
digits exactly on values below `2 ^ 53` (third conjunct) and are rounded,
ties to even, above.  Every price containing a character that occurs in no
numeric spelling is returned unchanged, and the documented examples
hold. -/
theorem toCurrencyFormat_spec :
    (∀ price fixed rep, price.any nonNumericChar = true →
      toCurrencyFormat price fixed rep = price) ∧
    (∀ sgn ds rest fixed rep, (sgn = [] ∨ sgn = ['-']) → ds ≠ [] →
      (∀ c ∈ ds, c.isDigit = true) → ds.length ≤ 20 →
      (rest = [] ∨ ∃ fr, rest = '.' :: fr ∧ fr ≠ [] ∧
        ∀ c ∈ fr, c.isDigit = true) →
      toCurrencyFormat (sgn ++ ds ++ rest) fixed rep
        = currencySpec (sgn ++ ds ++ rest) fixed rep) ∧
    (∀ ds, ds ≠ [] → (∀ c ∈ ds, c.isDigit = true) →
      (ds.head? ≠ some '0' ∨ ds.length = 1) → natOfDigits ds < 2 ^ 53 →
      digitsOfNat (roundDouble (natOfDigits ds)) = ds) ∧
    toCurrencyFormat ("1234.5".toList) 2 [','] = "1,234.50".toList ∧
    toCurrencyFormat ("1000".toList) 0 [','] = "1,000".toList ∧
    toCurrencyFormat ("abc".toList) 0 [','] = "abc".toList := by
  refine ⟨?_, ?_, ?_, by decide, by decide, by decide⟩
  · intro price fixed rep hnn
    unfold toCurrencyFormat
    rw [nonNumeric_isNumberStr_false hnn, if_pos rfl]
  · intro sgn ds rest fixed rep h1 h2 h3 _ h5
    exact toCurrencyFormat_structured sgn ds rest fixed rep h1 h2 h3 h5
  · intro ds h1 h2 h3 h4
    rw [roundDouble_small h4]
    exact digitsOfNat_natOfDigits ds h1 h2 h3

/-- C6 witness: the pass-through part of `toCurrencyFormat_spec` at
`"1,000"` (the comma occurs in no numeric spelling), the formatting part at
the structured form of `"1234.5"` with `fixed = 2`, and the
digit-preservation part at `"25"`, hypotheses discharged by `decide`. -/
theorem toCurrencyFormat_spec_witness :
    toCurrencyFormat ("1,000".toList) 2 [','] = "1,000".toList ∧
    toCurrencyFormat (([] : List Char) ++ "1234".toList ++ '.' :: "5".toList)
        2 [',']
      = currencySpec (([] : List Char) ++ "1234".toList ++ '.' :: "5".toList)
        2 [','] ∧
    digitsOfNat (roundDouble (natOfDigits ("25".toList))) = "25".toList :=
  ⟨toCurrencyFormat_spec.1 ("1,000".toList) 2 [','] (by decide),
   toCurrencyFormat_spec.2.1 [] ("1234".toList) ('.' :: "5".toList) 2 [',']
     (Or.inl rfl) (by decide) (by decide) (by decide)
     (Or.inr ⟨"5".toList, rfl, by decide, by decide⟩),
   toCurrencyFormat_spec.2.2.1 ("25".toList) (by decide) (by decide)
     (by decide) (by decide)⟩
